import Mathlib

/-!
# Verification of the tap-exchangerate core pipeline

Shallow embedding of `src/tap_exchangerate/__init__.py`.

Modelling conventions:

* A calendar date is represented by an `Int` (its day number, as in
  `date.toordinal()`); `timedelta` arithmetic on dates becomes `Int`
  arithmetic, and `(b - a).days` becomes `b - a`.  ISO-formatted date
  strings are in bijection with the dates they denote, so a function that
  passes dates around as `"%Y-%m-%d"` strings is modelled directly on the
  underlying day numbers (the `strftime`/`strptime` round trips in
  `get_exr_timeseries` preserve the value).
* Python `math.ceil(a / b)` on nonnegative integers is the exact ceiling
  `(a + b - 1) / b` (the float division is exact at the magnitudes the
  program can ever reach before other limits kick in).
* A generator is modelled by the list of values it yields; a raised
  exception is modelled by `Except.error` / an error component.
* The network call inside `get_exr_366_days` is abstracted as a function
  parameter `fetch`; its transport/JSON errors are one abstract error type.
-/

set_option maxRecDepth 40000

namespace TapExchangerate

/-- Decidable equality for `Except`, used to evaluate the embedded
functions on concrete inputs. -/
instance {ε α : Type} [DecidableEq ε] [DecidableEq α] :
    DecidableEq (Except ε α) := fun
  | .ok a, .ok b =>
      if h : a = b then .isTrue (by rw [h]) else .isFalse (by simp [h])
  | .error a, .error b =>
      if h : a = b then .isTrue (by rw [h]) else .isFalse (by simp [h])
  | .ok _, .error _ => .isFalse (by simp)
  | .error _, .ok _ => .isFalse (by simp)

/-! ## Date normalizer (`as_date`, lines 27-37)

Python values that can reach `as_date`; `datetime` carries a time-of-day
component (seconds since midnight), `date` does not.  `strptime` is library
code, abstracted as an oracle `parse : String → Option Int` returning the
day denoted by a string when it matches the format and `none` when it does
not (in which case `strptime` raises `ValueError`).  With the default
`"%Y-%m-%d"` format a successful `strptime` returns a `datetime` at
midnight. -/

inductive PyVal where
  | vDatetime (day : Int) (secsOfDay : Nat)
  | vDate (day : Int)
  | vStr (s : String)
  | vOther
deriving DecidableEq

inductive PyExn where
  | valueError
deriving DecidableEq

/-- Embedding of `as_date` (lines 27-37): `isinstance` dispatch, `datetime`
checked before `date` (a Python `datetime` is also a `date`), strings go
through `strptime` which returns a `datetime`, anything else raises
`ValueError`. -/
def as_date (parse : String → Option Int) : PyVal → Except PyExn PyVal
  | .vDatetime day _ => .ok (.vDate day)
  | .vDate day => .ok (.vDate day)
  | .vStr s =>
      match parse s with
      | some day => .ok (.vDatetime day 0)
      | none => .error .valueError
  | .vOther => .error .valueError

/-! ## Date range sequencer (`generate_date_range`, lines 48-76) -/

/-- Exact integer ceiling of `a / b`, the value of Python
`math.ceil(a / b)` for nonnegative `a` and positive `b`. -/
def ceilNat (a b : Nat) : Nat := (a + b - 1) / b

/-- Number of elements of Python `range(start, stop, step)`, following the
closed form CPython uses (`(hi - lo - 1) // |step| + 1` when nonempty).
All divisions have nonnegative numerators, where floor/truncating/euclidean
division agree.  Callers in this file only use `step = 1` or `step = -1`. -/
def pyRangeLen (start stop step : Int) : Nat :=
  if 0 < step then
    (if start < stop then ((stop - start - 1) / step + 1).toNat else 0)
  else
    (if stop < start then ((start - stop - 1) / (-step) + 1).toNat else 0)

/-- Embedding of Python `range(start, stop, step)` as the list of values it
yields: `start, start + step, ...`. -/
def pyRange (start stop step : Int) : List Int :=
  (List.range (pyRangeLen start stop step)).map
    (fun (i : Nat) => start + step * (i : Int))

/-- Embedding of `generate_date_range` (lines 48-76): endpoints already
normalized to day numbers, the `_format` parameter abstracted away (the
formatted strings are in bijection with the dates).  The source computes
`step = 1 if start <= end else -1` and iterates
`range(0, (end - start).days + step, step)`, yielding `start + days`. -/
def generate_date_range (start finish : Int) : List Int :=
  let step : Int := if start ≤ finish then 1 else -1
  (pyRange 0 ((finish - start) + step) step).map (fun days => start + days)

/-! ## Range partitioner (`generate_item_pairs`, lines 79-93) -/

/-- Embedding of the Python extended slice `l[::k]` for `k ≥ 1`: the
elements at indices `0, k, 2k, ...`.  Structural recursion on a fuel
counter (set to the list length, which always suffices) so the
function reduces definitionally. -/
def sliceStepAux (k : Nat) : Nat → List α → List α
  | 0, _ => []
  | _, [] => []
  | fuel + 1, x :: xs => x :: sliceStepAux k fuel (xs.drop (k - 1))

/-- The Python slice `l[::k]` (for the positive steps this program uses). -/
def sliceStep (l : List α) (k : Nat) : List α :=
  sliceStepAux k l.length l

/-- Embedding of `generate_item_pairs` (lines 79-93).  `n == 0` returns
before the input is even materialized; otherwise the stride is
`ceil(len / n)`, and a stride of `0` (empty input) makes the slice
`all_items[::0]` raise `ValueError: slice step cannot be zero`.  The final
element is appended when not already present **by value** (`not in` is a
value-membership test), and adjacent sampled elements are paired by
`zip(lst, lst[1:])`. -/
def generate_item_pairs [DecidableEq α] (l : List α) (n : Nat) :
    Except String (List (α × α)) :=
  if n = 0 then .ok []
  else
    let stride := ceilNat l.length n
    if stride = 0 then .error "slice step cannot be zero"
    else
      let narrowed := sliceStep l stride
      let withFinal := narrowed ++
        (match l.getLast? with
         | some last => if last ∈ narrowed then [] else [last]
         | none => [])
      .ok (withFinal.zip withFinal.tail)

/-- Embedding of `generate_date_pairs` (lines 96-99). -/
def generate_date_pairs (start_date end_date : Int) (n : Nat) :
    Except String (List (Int × Int)) :=
  generate_item_pairs (generate_date_range start_date end_date) n

/-! ## Lookahead tagger (`zip_is_last`, lines 102-120) -/

/-- Embedding of `zip_is_last` (lines 102-120): one element of lookahead,
the final element tagged `true`, every other element tagged `false`, empty
input produces empty output. -/
def zip_is_last : List α → List (α × Bool)
  | [] => []
  | [x] => [(x, true)]
  | x :: y :: t => (x, false) :: zip_is_last (y :: t)

/-! ## Window fetcher and orchestrator (`get_exr_timeseries`, lines 123-148) -/

/-- Embedding of the source `ExchangeRow` named tuple (lines 13-16); the
rate payload type is a parameter (the source stores a float, which no claim
inspects). -/
structure ExchangeRow (ρ : Type) where
  date : Int
  currency : String
  rate : ρ
deriving DecidableEq

/-- Errors escaping `get_exr_timeseries`: the window-size `assert` in
`get_exr_366_days` (line 126), an error from the remote fetch
(`raise_for_status` / missing `"rates"` key, lines 130-137, abstracted),
or the `ValueError` raised by the slicing in `generate_item_pairs`. -/
inductive OrchError (ε : Type) where
  | assertFail
  | fetchErr (e : ε)
  | valueError (msg : String)
deriving DecidableEq

/-- Embedding of `n_cuts` (line 139):
`ceil(abs((as_date(end_date) - as_date(start_date)).days) / 365)`. -/
def n_cuts (start_date end_date : Int) : Nat :=
  ceilNat (end_date - start_date).natAbs 365

/-- Embedding of `get_exr_366_days` (lines 124-137): assert the window is
at most 365 days wide, then perform the remote request (abstracted as
`fetch`), yielding one `ExchangeRow` per `(date, currency)` entry of the
response. -/
def get_exr_366_days (fetch : Int → Int → Except ε (List (ExchangeRow ρ)))
    (start_date end_date : Int) : Except (OrchError ε) (List (ExchangeRow ρ)) :=
  if end_date - start_date ≤ 365 then
    match fetch start_date end_date with
    | .ok rows => .ok rows
    | .error e => .error (.fetchErr e)
  else .error .assertFail

/-- Boundary shift of one tagged date pair (lines 144-148):
`day_offset = 0 if is_last_pair else 1`, and the window fetched is
`(date_pair[0], date_pair[1] - day_offset)`. -/
def shiftWin (q : (Int × Int) × Bool) : Int × Int :=
  (q.1.1, q.1.2 - (if q.2 then 0 else 1))

/-- The `(from, to)` windows `get_exr_timeseries` fetches (lines 141-148):
the date pairs, tagged by `zip_is_last`, with the `to` endpoint of every
non-last pair shifted back one day. -/
def tsWindows (start_date end_date : Int) : Except String (List (Int × Int)) :=
  (generate_date_pairs start_date end_date (n_cuts start_date end_date)).map
    fun ps => (zip_is_last ps).map shiftWin

/-- Sequential fetch loop of `get_exr_timeseries`: rows of each window are
yielded in order; the first error stops the stream (later windows are never
fetched).  The result is the pair (rows yielded before any failure,
optional error). -/
def runWindows (fetch : Int → Int → Except ε (List (ExchangeRow ρ))) :
    List (Int × Int) → List (ExchangeRow ρ) × Option (OrchError ε)
  | [] => ([], none)
  | w :: ws =>
      match get_exr_366_days fetch w.1 w.2 with
      | .ok rows =>
          let rest := runWindows fetch ws
          (rows ++ rest.1, rest.2)
      | .error e => ([], some e)

/-- Embedding of `get_exr_timeseries` (lines 123-148): compute the shifted
windows and fetch them in order.  A `ValueError` escaping the pair
generator surfaces before any row is yielded (the generator chain is pulled
lazily, and the slice is evaluated on the first pull). -/
def get_exr_timeseries (fetch : Int → Int → Except ε (List (ExchangeRow ρ)))
    (start_date end_date : Int) : List (ExchangeRow ρ) × Option (OrchError ε) :=
  match tsWindows start_date end_date with
  | .ok ws => runWindows fetch ws
  | .error msg => ([], some (.valueError msg))

/-! ## Helper definitions used by lemma statements, witnesses and
counterexamples (not part of the embedding) -/

/-- The ascending inclusive day sequence of length `L` starting at `s`. -/
def ascRange (s : Int) (L : Nat) : List Int :=
  (List.range L).map (fun (i : Nat) => s + (i : Int))

/-- The shifted windows in closed form: `P` windows of stride `st` starting
at `s`, the last one ending at `f` unshifted, all others ending one day
before the next window starts. -/
def chainW (s f : Int) (st P : Nat) : List (Int × Int) :=
  (List.range P).map fun j =>
    (s + ((j * st : Nat) : Int),
      if j = P - 1 then f else s + (((j + 1) * st : Nat) : Int) - 1)

/-! ## Test fixtures used by the witnesses and counterexamples -/

/-- An ideal fetcher for the no-duplicate invariant: one row per
`(date, currency)` pair, for exactly the dates of the requested window,
over the single currency `"USD"`. -/
def prodFetch : Int → Int → Except Unit (List (ExchangeRow Int)) :=
  fun a b => .ok ((generate_date_range a b).flatMap
    (fun d => (["USD"]).map (fun c => ExchangeRow.mk d c 1)))

/-- A fetcher whose request for the window starting on day 245 fails and
which succeeds (with one row) everywhere else. -/
def failFetch : Int → Int → Except String (List (ExchangeRow Int)) :=
  fun a _ => if a = 245 then .error "boom" else .ok [ExchangeRow.mk a "USD" 1]

/-- The row list `failFetch` returns for a window it accepts. -/
def oneRow : Int × Int → List (ExchangeRow Int) :=
  fun w => [ExchangeRow.mk w.1 "USD" 1]

/-- A `strptime` oracle for the default `"%Y-%m-%d"` pattern that
recognizes exactly the text `"2023-01-01"` (proleptic ordinal 738521). -/
def parse20230101 : String → Option Int :=
  fun t => if t = "2023-01-01" then some 738521 else none

/-! ## Arithmetic facts about the exact ceiling -/

lemma ceilNat_bounds (a b : Nat) (hb : 0 < b) :
    a ≤ ceilNat a b * b ∧ ceilNat a b * b ≤ a + b - 1 := by
  have key : ∀ m r : Nat, m + r = a + b - 1 → r < b →
      a ≤ m ∧ m ≤ a + b - 1 := by
    intro m r h1 h2
    omega
  have h3 : (a + b - 1) / b * b + (a + b - 1) % b = a + b - 1 := by
    rw [Nat.mul_comm]
    exact Nat.div_add_mod _ _
  exact key _ _ h3 (Nat.mod_lt _ hb)

lemma one_le_ceilNat (a b : Nat) (ha : 1 ≤ a) (hb : 0 < b) : 1 ≤ ceilNat a b := by
  have h := (ceilNat_bounds a b hb).1
  rcases Nat.eq_zero_or_pos (ceilNat a b) with h0 | h1
  · rw [h0, Nat.zero_mul] at h
    omega
  · exact h1

lemma ceilNat_zero (b : Nat) : ceilNat 0 b = 0 := by
  rcases b with _ | b
  · rfl
  · exact Nat.div_eq_of_lt (by omega)

lemma ceilNat_eq_pred_div (L k : Nat) (hL : 1 ≤ L) (hk : 0 < k) :
    ceilNat L k = (L - 1) / k + 1 := by
  unfold ceilNat
  have h : L + k - 1 = (L - 1) + k := by omega
  rw [h, Nat.add_div_right _ hk]

lemma ceilNat_succ (L k : Nat) (hL : 1 ≤ L) (hk : 0 < k) :
    ceilNat L k = ceilNat (L - k) k + 1 := by
  rcases le_or_lt L k with h | h
  · have h0 : L - k = 0 := by omega
    rw [h0, ceilNat_zero, ceilNat_eq_pred_div L k hL hk,
      Nat.div_eq_of_lt (by omega)]
  · rw [ceilNat_eq_pred_div L k hL hk, ceilNat_eq_pred_div (L - k) k (by omega) hk]
    have h1 : L - 1 = (L - k - 1) + k := by omega
    rw [h1, Nat.add_div_right _ hk]

/-! ## Closed forms for the date range sequencer -/

lemma ascRange_length (s : Int) (L : Nat) : (ascRange s L).length = L := by
  simp [ascRange]

lemma generate_date_range_def (s f : Int) :
    generate_date_range s f =
      (pyRange 0 ((f - s) + (if s ≤ f then 1 else -1)) (if s ≤ f then 1 else -1)).map
        (fun days => s + days) := rfl

lemma generate_date_range_asc (s f : Int) (h : s ≤ f) :
    generate_date_range s f = ascRange s ((f - s).toNat + 1) := by
  have hlen : pyRangeLen 0 (f - s + 1) 1 = (f - s).toNat + 1 := by
    rw [pyRangeLen, if_pos (by omega : (0 : Int) < 1), if_pos (by omega)]
    omega
  rw [generate_date_range_def, if_pos h, pyRange, hlen]
  unfold ascRange
  rw [List.map_map]
  apply List.map_congr_left
  intro i _
  simp only [Function.comp_apply]
  omega

lemma generate_date_range_desc (s f : Int) (h : f < s) :
    generate_date_range s f =
      (List.range ((s - f).toNat + 1)).map (fun (i : Nat) => s - (i : Int)) := by
  have hlen : pyRangeLen 0 (f - s + -1) (-1) = (s - f).toNat + 1 := by
    rw [pyRangeLen, if_neg (by omega : ¬ (0 : Int) < -1), if_pos (by omega)]
    simp only [neg_neg]
    omega
  rw [generate_date_range_def, if_neg (by omega : ¬ s ≤ f), pyRange, hlen]
  rw [List.map_map]
  apply List.map_congr_left
  intro i _
  simp only [Function.comp_apply]
  omega

lemma ascRange_append (s : Int) (a b : Nat) :
    ascRange s (a + b) = ascRange s a ++ ascRange (s + a) b := by
  unfold ascRange
  rw [List.range_add, List.map_append, List.map_map]
  congr 1
  apply List.map_congr_left
  intro i _
  simp only [Function.comp_apply]
  push_cast
  ring

lemma ascRange_getLast? (s : Int) (L : Nat) :
    (ascRange s (L + 1)).getLast? = some (s + L) := by
  unfold ascRange
  rw [List.range_succ, List.map_append]
  simp

lemma ascRange_nodup (s : Int) (L : Nat) : (ascRange s L).Nodup := by
  unfold ascRange
  refine List.Nodup.map ?_ (List.nodup_range L)
  intro i j hij
  simp only at hij
  have h : (i : Int) = j := by omega
  exact_mod_cast h

lemma generate_date_range_split (s m f : Int) (h1 : s < m) (h2 : m ≤ f) :
    generate_date_range s (m - 1) ++ generate_date_range m f =
      generate_date_range s f := by
  rw [generate_date_range_asc s (m - 1) (by omega),
    generate_date_range_asc m f (by omega),
    generate_date_range_asc s f (by omega)]
  have ha : (m - 1 - s).toNat + 1 = (m - s).toNat := by omega
  have hc : (f - s).toNat + 1 = (m - s).toNat + ((f - m).toNat + 1) := by omega
  have hm : s + ((m - s).toNat : Int) = m := by omega
  rw [ha, hc, ascRange_append s ((m - s).toNat) ((f - m).toNat + 1), hm]

/-! ## Facts about the slice `l[::k]` -/

lemma sliceStepAux_fuel_congr (k : Nat) :
    ∀ (f1 f2 : Nat) (l : List α), l.length ≤ f1 → l.length ≤ f2 →
      sliceStepAux k f1 l = sliceStepAux k f2 l := by
  intro f1
  induction f1 generalizing k with
  | zero =>
      intro f2 l h1 _
      have hl : l = [] := List.eq_nil_of_length_eq_zero (by omega)
      subst hl
      cases f2 <;> rfl
  | succ f ih =>
      intro f2 l h1 h2
      cases l with
      | nil => cases f2 <;> rfl
      | cons x xs =>
          cases f2 with
          | zero => simp at h2
          | succ f' =>
              simp only [sliceStepAux]
              congr 1
              apply ih
              · have := List.length_drop (k - 1) xs
                simp at h1 ⊢
                omega
              · have := List.length_drop (k - 1) xs
                simp at h2 ⊢
                omega

/-- Recursion equation for `sliceStep` on a nonempty list. -/
lemma sliceStep_cons (x : α) (xs : List α) (k : Nat) :
    sliceStep (x :: xs) k = x :: sliceStep (xs.drop (k - 1)) k := by
  unfold sliceStep
  simp only [List.length_cons, sliceStepAux]
  congr 1
  apply sliceStepAux_fuel_congr
  · rw [List.length_drop]
    omega
  · rfl

lemma sliceStep_nil (k : Nat) : sliceStep ([] : List α) k = [] := rfl

lemma drop_map_range (g : Nat → α) (n j : Nat) :
    ((List.range n).map g).drop j = (List.range (n - j)).map (fun i => g (j + i)) := by
  rcases le_or_lt j n with h | h
  · conv_lhs =>
      rw [show n = j + (n - j) by omega, List.range_add, List.map_append]
    rw [List.drop_left' (by simp), List.map_map]
    rfl
  · rw [List.drop_eq_nil_of_le (by simp; omega), show n - j = 0 by omega]
    rfl

lemma sliceStepAux_range_map (k : Nat) (hk : 0 < k) :
    ∀ (fuel : Nat) (L : Nat) (g : Nat → α), L ≤ fuel →
      sliceStepAux k fuel ((List.range L).map g) =
        (List.range (ceilNat L k)).map (fun j => g (j * k)) := by
  intro fuel
  induction fuel with
  | zero =>
      intro L g hL
      have h0 : L = 0 := by omega
      subst h0
      rw [ceilNat_zero]
      rfl
  | succ fuel ih =>
      intro L g hL
      cases L with
      | zero =>
          rw [ceilNat_zero]
          rfl
      | succ L' =>
          rw [List.range_succ_eq_map, List.map_cons, List.map_map]
          simp only [sliceStepAux]
          rw [drop_map_range]
          have harg : ∀ i : Nat, (g ∘ Nat.succ) ((k - 1) + i) = g (i + k) := by
            intro i
            simp only [Function.comp_apply]
            congr 1
            omega
          rw [List.map_congr_left (fun i _ => harg i)]
          have hL1 : L' - (k - 1) = (L' + 1) - k := by omega
          rw [hL1, ih ((L' + 1) - k) (fun i => g (i + k)) (by omega)]
          have hc : ceilNat (L' + 1) k = ceilNat ((L' + 1) - k) k + 1 :=
            ceilNat_succ (L' + 1) k (by omega) hk
          rw [hc, List.range_succ_eq_map, List.map_cons, List.map_map]
          congr 1
          · simp
          · apply List.map_congr_left
            intro j _
            simp only [Function.comp_apply]
            congr 1
            rw [Nat.succ_mul]

lemma sliceStep_range_map (k : Nat) (hk : 0 < k) (L : Nat) (g : Nat → α) :
    sliceStep ((List.range L).map g) k =
      (List.range (ceilNat L k)).map (fun j => g (j * k)) := by
  unfold sliceStep
  apply sliceStepAux_range_map k hk
  simp

lemma sliceStep_ascRange (s : Int) (L k : Nat) (hk : 0 < k) :
    sliceStep (ascRange s L) k =
      (List.range (ceilNat L k)).map (fun (j : Nat) => s + ((j * k : Nat) : Int)) := by
  unfold ascRange
  exact sliceStep_range_map k hk L _

lemma sliceStep_sublist (k : Nat) :
    ∀ (N : Nat) (l : List α), l.length ≤ N → (sliceStep l k).Sublist l := by
  intro N
  induction N with
  | zero =>
      intro l hl
      have h0 : l = [] := List.eq_nil_of_length_eq_zero (by omega)
      subst h0
      exact List.Sublist.refl _
  | succ N ih =>
      intro l hl
      cases l with
      | nil => exact List.Sublist.refl _
      | cons x xs =>
          rw [sliceStep_cons]
          refine List.Sublist.cons₂ x ?_
          refine List.Sublist.trans ?_ (List.drop_sublist (k - 1) xs)
          apply ih
          rw [List.length_drop]
          simp at hl
          omega

lemma sliceStep_head (x : α) (xs : List α) (k : Nat) :
    (sliceStep (x :: xs) k).head? = some x := by
  rw [sliceStep_cons]
  rfl

lemma getLast?_drop_of_lt (l : List α) (n : Nat) (h : n < l.length) :
    (l.drop n).getLast? = l.getLast? := by
  rw [List.getLast?_eq_getElem?, List.getLast?_eq_getElem?, List.getElem?_drop,
    List.length_drop]
  congr 1
  omega

lemma getLast?_cons_of_ne_nil (x : α) (S : List α) (h : S ≠ []) :
    (x :: S).getLast? = S.getLast? := by
  cases S with
  | nil => exact absurd rfl h
  | cons a as => exact List.getLast?_cons_cons

lemma ne_nil_getLast?_some (l : List α) (h : l ≠ []) : ∃ z, l.getLast? = some z :=
  Option.isSome_iff_exists.mp (List.getLast?_isSome.mpr h)

/-- If a duplicate-free list's last element appears in its slice, it is the
slice's last element (the sampled indices are increasing, and by
`Nodup` the last element occurs at no earlier index). -/
lemma sliceStep_getLast?_of_mem (k : Nat) :
    ∀ (N : Nat) (l : List α), l.length ≤ N → l.Nodup → ∀ z, l.getLast? = some z →
      z ∈ sliceStep l k → (sliceStep l k).getLast? = some z := by
  intro N
  induction N with
  | zero =>
      intro l hl _ z hz _
      have h0 : l = [] := by
        cases l with
        | nil => rfl
        | cons a as => simp at hl
      rw [h0] at hz
      simp at hz
  | succ N ih =>
      intro l hl hnd z hz hmem
      cases l with
      | nil => simp at hz
      | cons x xs =>
          have hxmem : x ∉ xs := (List.nodup_cons.mp hnd).1
          rw [sliceStep_cons] at hmem ⊢
          obtain ⟨d, hd⟩ : ∃ d, xs.drop (k - 1) = d := ⟨_, rfl⟩
          rw [hd] at hmem ⊢
          cases d with
          | nil =>
            rw [sliceStep_nil] at hmem ⊢
            have hzx : z = x := List.mem_singleton.mp hmem
            subst hzx
            by_cases hxs : xs = []
            · subst hxs
              simp at hz
              simp [hz]
            · exfalso
              rw [getLast?_cons_of_ne_nil _ _ hxs] at hz
              exact hxmem (List.mem_of_getLast?_eq_some hz)
          | cons y t =>
            have hxs : xs ≠ [] := by
              intro h0
              rw [h0] at hd
              simp at hd
            have hklt : k - 1 < xs.length := by
              by_contra hcon
              rw [List.drop_eq_nil_of_le (by omega)] at hd
              exact List.noConfusion hd
            have hzxs : xs.getLast? = some z := by
              rw [getLast?_cons_of_ne_nil _ _ hxs] at hz
              exact hz
            have hS0 : sliceStep (y :: t) k = y :: sliceStep (t.drop (k - 1)) k :=
              sliceStep_cons y t k
            have hSne : sliceStep (y :: t) k ≠ [] := by
              rw [hS0]
              exact List.cons_ne_nil _ _
            rcases List.mem_cons.mp hmem with hmx | hmS
            · exfalso
              rw [hmx] at hzxs
              exact hxmem (List.mem_of_getLast?_eq_some hzxs)
            · have hSlast := ih (y :: t)
                (by
                  have h1 : (xs.drop (k - 1)).length = xs.length - (k - 1) :=
                    List.length_drop _ _
                  rw [hd] at h1
                  simp only [List.length_cons] at h1 hl ⊢
                  omega)
                (by
                  have hsub : (y :: t).Sublist xs := hd ▸ List.drop_sublist (k - 1) xs
                  exact List.Nodup.sublist hsub (List.nodup_cons.mp hnd).2)
                z
                (by rw [← hd, getLast?_drop_of_lt xs (k - 1) hklt]; exact hzxs)
                hmS
              rw [getLast?_cons_of_ne_nil _ _ hSne]
              exact hSlast

/-! ## Facts about the lookahead tagger -/

lemma zip_is_last_nil : zip_is_last ([] : List α) = [] := rfl

lemma zip_is_last_concat (x : α) :
    ∀ l : List α, zip_is_last (l ++ [x]) =
      l.map (fun a => (a, false)) ++ [(x, true)] := by
  intro l
  induction l with
  | nil => rfl
  | cons a l ih =>
      cases l with
      | nil => rfl
      | cons b l' =>
          rw [List.cons_append, List.cons_append]
          rw [show zip_is_last (a :: b :: (l' ++ [x])) =
            (a, false) :: zip_is_last (b :: (l' ++ [x])) from rfl]
          rw [← List.cons_append, ih]
          rfl

lemma zip_is_last_map_fst : ∀ l : List α, (zip_is_last l).map Prod.fst = l := by
  intro l
  rcases List.eq_nil_or_concat l with h | ⟨l', x, h⟩
  · rw [h]
    rfl
  · rw [h, List.concat_eq_append, zip_is_last_concat, List.map_append, List.map_map]
    simp only [List.map_cons, List.map_nil]
    rw [show (Prod.fst ∘ fun (a : α) => (a, false)) = id from rfl, List.map_id]

/-! ## Facts about `zip(lst, lst[1:])` -/

lemma zip_tail_length (w : List α) : (w.zip w.tail).length = w.length - 1 := by
  rw [List.length_zip, List.length_tail]
  omega

lemma zip_tail_getElem (w : List α) (i : Nat) (h : i + 1 < w.length)
    (h2 : i < (w.zip w.tail).length) :
    (w.zip w.tail)[i] = (w[i], w[i + 1]) := by
  rw [List.getElem_zip]
  congr 1
  rw [List.getElem_tail]

lemma zip_tail_adjacent (w : List α) (i : Nat)
    (h : i + 1 < (w.zip w.tail).length) :
    ((w.zip w.tail)[i]).2 = ((w.zip w.tail)[i + 1]).1 := by
  have hw : i + 2 < w.length := by
    rw [zip_tail_length] at h
    omega
  rw [zip_tail_getElem w i (by omega) (by omega),
    zip_tail_getElem w (i + 1) (by omega) (by omega)]

lemma zip_tail_head? (a b : α) (w : List α) :
    ((a :: b :: w).zip (a :: b :: w).tail).head? = some (a, b) := rfl

lemma zip_tail_getLast? (w : List α) (h : 2 ≤ w.length) :
    (w.zip w.tail).getLast?.map Prod.snd = w.getLast? := by
  obtain ⟨N, hN⟩ : ∃ N, w.length ≤ N := ⟨w.length, le_refl _⟩
  induction N generalizing w with
  | zero => omega
  | succ N ih =>
      cases w with
      | nil => simp at h
      | cons a w' =>
          cases w' with
          | nil => simp at h
          | cons b t =>
              cases t with
              | nil => rfl
              | cons c t' =>
                  have hstep : ((a :: b :: c :: t').zip (a :: b :: c :: t').tail) =
                      (a, b) :: ((b :: c :: t').zip (b :: c :: t').tail) := rfl
                  rw [hstep]
                  have hne : ((b :: c :: t').zip (b :: c :: t').tail) ≠ [] := by
                    intro hcon
                    have := congrArg List.length hcon
                    rw [zip_tail_length] at this
                    simp at this
                  rw [getLast?_cons_of_ne_nil _ _ hne, List.getLast?_cons_cons]
                  apply ih
                  · simp
                  · simp at hN ⊢
                    omega

/-! ## Closed form of the partitioner output and the shifted windows -/

lemma generate_item_pairs_def [DecidableEq α] (l : List α) (n : Nat) :
    generate_item_pairs l n =
      if n = 0 then .ok []
      else if ceilNat l.length n = 0 then .error "slice step cannot be zero"
      else
        .ok (((sliceStep l (ceilNat l.length n) ++
          (match l.getLast? with
           | some last => if last ∈ sliceStep l (ceilNat l.length n) then [] else [last]
           | none => [])).zip
          (sliceStep l (ceilNat l.length n) ++
            (match l.getLast? with
             | some last => if last ∈ sliceStep l (ceilNat l.length n) then [] else [last]
             | none => [])).tail)) := rfl

/-- Every successful partitioner output is a `zip(w, w[1:])` of some list. -/
lemma generate_item_pairs_shape [DecidableEq α] (l : List α) (n : Nat)
    (ps : List (α × α)) (h : generate_item_pairs l n = .ok ps) :
    ∃ w : List α, ps = w.zip w.tail := by
  rw [generate_item_pairs_def] at h
  split at h
  · exact ⟨[], by simpa using h.symm⟩
  · split at h
    · exact absurd h (by simp)
    · exact ⟨_, by simpa using h.symm⟩

lemma pairs_map_range (h : Nat → α) (M : Nat) :
    ((List.range M).map h).zip (((List.range M).map h).tail) =
      (List.range (M - 1)).map (fun j => (h j, h (j + 1))) := by
  apply List.ext_getElem
  · rw [zip_tail_length]
    simp
  · intro i h1 h2
    have hlen : ((List.range M).map h).length = M := by simp
    have hi : i + 1 < M := by
      rw [zip_tail_length, hlen] at h1
      omega
    rw [zip_tail_getElem _ i (by rw [hlen]; omega)]
    simp

/-- A list made of `P` sampled elements followed by the appended final
element, written as one map over `List.range (P + 1)`. -/
lemma sampled_concat_eq_map (g : Nat → α) (z : α) (P : Nat) :
    (List.range P).map g ++ [z] =
      (List.range (P + 1)).map (fun j => if j < P then g j else z) := by
  rw [List.range_succ, List.map_append]
  congr 1
  · apply (List.map_congr_left _).symm
    intro j hj
    rw [if_pos (List.mem_range.mp hj)]
  · simp

/-- Applying the lookahead tagger and the boundary shift to the adjacent
pairs of `samples ++ [z]` gives: every pair of adjacent samples with its
second component moved one day back, and the final pair untouched. -/
lemma windowize_concat (g : Nat → Int) (z : Int) (P : Nat) (hP : 1 ≤ P) :
    (zip_is_last ((((List.range P).map g) ++ [z]).zip
        ((((List.range P).map g) ++ [z]).tail))).map shiftWin =
      (List.range P).map
        (fun j => (g j, if j = P - 1 then z else g (j + 1) - 1)) := by
  set g' : Nat → Int := fun j => if j < P then g j else z with hg'
  rw [sampled_concat_eq_map g z P, pairs_map_range g' (P + 1)]
  simp only [Nat.add_sub_cancel]
  obtain ⟨Q, rfl⟩ : ∃ Q, P = Q + 1 := ⟨P - 1, by omega⟩
  rw [List.range_succ, List.map_append, List.map_cons, List.map_nil,
    zip_is_last_concat, List.map_append, List.map_map, List.map_map,
    List.map_cons, List.map_nil]
  rw [List.map_append, List.map_cons, List.map_nil]
  congr 1
  · apply List.map_congr_left
    intro j hj
    have hjQ : j < Q := List.mem_range.mp hj
    simp only [Function.comp_apply, shiftWin, hg']
    rw [if_pos (by omega : j < Q + 1), if_pos (by omega : j + 1 < Q + 1),
      if_neg (by omega : ¬ j = Q + 1 - 1)]
    simp
  · simp only [shiftWin, hg']
    rw [if_pos (by omega : Q < Q + 1), if_neg (by omega : ¬ Q + 1 < Q + 1),
      if_pos (by omega : Q = Q + 1 - 1)]
    simp

lemma mem_chainW (s f : Int) (st P : Nat) (w : Int × Int) :
    w ∈ chainW s f st P ↔
      ∃ j, j < P ∧ w = (s + ((j * st : Nat) : Int),
        if j = P - 1 then f else s + (((j + 1) * st : Nat) : Int) - 1) := by
  unfold chainW
  rw [List.mem_map]
  constructor
  · rintro ⟨j, hj, rfl⟩
    exact ⟨j, List.mem_range.mp hj, rfl⟩
  · rintro ⟨j, hj, rfl⟩
    exact ⟨j, List.mem_range.mpr hj, rfl⟩

lemma chainW_one (s f : Int) (st : Nat) : chainW s f st 1 = [(s, f)] := by
  unfold chainW
  rw [show List.range 1 = [0] from rfl, List.map_cons, List.map_nil]
  norm_num

lemma chainW_cons (s f : Int) (st : Nat) (P : Nat) (hP : 1 ≤ P) :
    chainW s f st (P + 1) = (s, s + (st : Int) - 1) :: chainW (s + (st : Int)) f st P := by
  unfold chainW
  rw [List.range_succ_eq_map, List.map_cons, List.map_map]
  congr 1
  · rw [if_neg (by omega : ¬ 0 = P + 1 - 1)]
    norm_num
  · apply List.map_congr_left
    intro j hj
    have hjP : j < P := List.mem_range.mp hj
    simp only [Function.comp_apply]
    have h1 : (Nat.succ j) = j + 1 := rfl
    rw [h1]
    have hc1 : s + (((j + 1) * st : Nat) : Int) = s + (st : Int) + ((j * st : Nat) : Int) := by
      push_cast
      ring
    have hc2 : s + (((j + 1 + 1) * st : Nat) : Int) =
        s + (st : Int) + (((j + 1) * st : Nat) : Int) := by
      push_cast
      ring
    by_cases hc : j = P - 1
    · rw [if_pos (by omega : j + 1 = P + 1 - 1), if_pos hc, hc1]
    · rw [if_neg (by omega : ¬ j + 1 = P + 1 - 1), if_neg hc, hc1, hc2]

/-- The concatenation of the day ranges of the shifted windows is exactly
the full day range: the windows tile `[s, f]` with no gap and no overlap. -/
lemma chainW_cover (st : Nat) (hst : 1 ≤ st) :
    ∀ (P : Nat) (s f : Int), 1 ≤ P → (((P - 1) * st : Nat) : Int) ≤ f - s → s ≤ f →
      (chainW s f st P).flatMap (fun w => generate_date_range w.1 w.2) =
        generate_date_range s f := by
  intro P
  induction P with
  | zero => omega
  | succ P ih =>
      intro s f _ hlow hsf
      rcases Nat.eq_zero_or_pos P with h0 | hP1
      · subst h0
        rw [chainW_one]
        simp
      · have hPst : ((P * st : Nat) : Int) ≤ f - s := by
          have h1 : (P + 1 - 1) * st = P * st := by rw [Nat.add_sub_cancel]
          rw [h1] at hlow
          exact hlow
        have hstle : ((st : Nat) : Int) ≤ ((P * st : Nat) : Int) := by
          have : st ≤ P * st := Nat.le_mul_of_pos_left st hP1
          exact_mod_cast this
        rw [chainW_cons s f st P hP1, List.flatMap_cons]
        rw [ih (s + st) f hP1 (by
            have hps : ((P * st : Nat) : Int) = (((P - 1) * st : Nat) : Int) + st := by
              have h2 : P * st = (P - 1) * st + st := by
                have h3 : P = (P - 1) + 1 := by omega
                calc P * st = ((P - 1) + 1) * st := by rw [← h3]
                  _ = (P - 1) * st + st := by rw [Nat.add_mul, one_mul]
              rw [h2]
              push_cast
              ring
            omega)
          (by omega)]
        exact generate_date_range_split s (s + st) f (by omega) (by omega)

/-- Arithmetic facts about the window count `n`, the sampling stride `st`,
the number of samples `M` and the number of windows `P` computed by the
orchestrator for a span of `D ≥ 1` days. -/
lemma cuts_arith (D n st M P : Nat) (hD1 : 1 ≤ D)
    (hn : n = ceilNat D 365) (hst : st = ceilNat (D + 1) n)
    (hM : M = ceilNat (D + 1) st) (hP : P = if st ∣ D then M - 1 else M) :
    1 ≤ n ∧ 1 ≤ st ∧ 1 ≤ M ∧ 1 ≤ P ∧
      (st ∣ D → (M - 1) * st = D ∧ P = M - 1) ∧
      (¬ st ∣ D → P = M) ∧
      (P - 1) * st < D ∧ D ≤ P * st ∧ (¬ st ∣ D → D < P * st) ∧
      st ≤ 366 ∧ (st = 366 → D = 365 * n) := by
  have hn1 : 1 ≤ n := hn ▸ one_le_ceilNat D 365 hD1 (by norm_num)
  have hst1 : 1 ≤ st := hst ▸ one_le_ceilNat (D + 1) n (by omega) hn1
  have hM1 : 1 ≤ M := hM ▸ one_le_ceilNat (D + 1) st (by omega) hst1
  have b1 := ceilNat_bounds D 365 (by norm_num)
  rw [← hn] at b1
  have b2 := ceilNat_bounds (D + 1) n hn1
  rw [← hst] at b2
  have b3 := ceilNat_bounds (D + 1) st hst1
  rw [← hM] at b3
  -- the stride is at most 366
  have hst366 : st ≤ 366 := by
    by_contra hcon
    have h367 : 367 * n ≤ st * n := Nat.mul_le_mul_right n (by omega)
    generalize hX : st * n = X at h367 b2
    generalize hY : n * 365 = Y at b1
    have hY' : Y = 365 * n := by rw [← hY, Nat.mul_comm]
    omega
  -- a stride of exactly 366 forces the span to be exactly 365 * n days
  have hst366' : st = 366 → D = 365 * n := by
    intro h366
    rw [h366] at b2
    generalize hY : n * 365 = Y at b1
    have hY' : Y = 365 * n := by rw [← hY, Nat.mul_comm]
    omega
  -- one fewer sample than M covers strictly less than the whole span
  have hMst : (M - 1) * st ≤ D := by
    have hsub : (M - 1) * st = M * st - st := by
      rw [Nat.sub_mul, Nat.one_mul]
    generalize hZ : M * st = Z at b3 hsub
    omega
  have hDlt : D < M * st := by
    generalize hZ : M * st = Z at b3
    omega
  rcases Classical.em (st ∣ D) with hdvd | hdvd
  · obtain ⟨c, hc⟩ := hdvd
    have hc' : c * st = D := by rw [Nat.mul_comm, ← hc]
    have hcM : c < M := by
      have h1 : c * st < M * st := by rw [hc']; exact hDlt
      exact Nat.lt_of_mul_lt_mul_right h1
    have hcM' : M - 1 ≤ c := by
      have h1 : (M - 1) * st ≤ c * st := by rw [hc']; exact hMst
      exact Nat.le_of_mul_le_mul_right h1 (by omega)
    have hceq : c = M - 1 := by omega
    have hMD : (M - 1) * st = D := by rw [← hceq]; exact hc'
    have hPM : P = M - 1 := by rw [hP, if_pos ⟨c, hc⟩]
    have hM2 : 2 ≤ M := by
      rcases Nat.eq_zero_or_pos c with h0 | h1
      · rw [h0] at hc'
        simp at hc'
        omega
      · omega
    have hP1 : 1 ≤ P := by omega
    refine ⟨hn1, hst1, hM1, hP1, fun _ => ⟨hMD, hPM⟩, fun hno => absurd ⟨c, hc⟩ hno,
      ?_, ?_, fun hno => absurd ⟨c, hc⟩ hno, hst366, hst366'⟩
    · rw [hPM]
      calc (M - 1 - 1) * st < (M - 1) * st := by
            apply (Nat.mul_lt_mul_right (by omega : 0 < st)).mpr
            omega
        _ = D := hMD
    · rw [hPM, hMD]
  · have hPM : P = M := by rw [hP, if_neg hdvd]
    have hne : (M - 1) * st ≠ D := by
      intro heq
      exact hdvd ⟨M - 1, by rw [← heq, Nat.mul_comm]⟩
    refine ⟨hn1, hst1, hM1, by omega, fun hd => absurd hd hdvd, fun _ => hPM,
      ?_, ?_, fun _ => ?_, hst366, hst366'⟩
    · rw [hPM]
      omega
    · rw [hPM]
      omega
    · rw [hPM]
      exact hDlt

/-- Closed form of the partitioner output on an ascending date range:
`P` evenly spaced samples followed by the final date. -/
lemma generate_date_pairs_closed (s f : Int) (D n st M P : Nat)
    (hD : (f - s).toNat = D) (hsf : s < f)
    (hn : n = ceilNat D 365) (hst : st = ceilNat (D + 1) n)
    (hM : M = ceilNat (D + 1) st) (hP : P = if st ∣ D then M - 1 else M) :
    generate_date_pairs s f n =
      .ok (((List.range P).map (fun (j : Nat) => s + ((j * st : Nat) : Int)) ++ [f]).zip
        (((List.range P).map (fun (j : Nat) => s + ((j * st : Nat) : Int)) ++ [f]).tail)) := by
  have hD1 : 1 ≤ D := by omega
  obtain ⟨hn1, hst1, hM1, hP1, hdvd, hndvd, _, _, _, _, _⟩ :=
    cuts_arith D n st M P hD1 hn hst hM hP
  have hfD : s + (D : Int) = f := by omega
  have hgdr : generate_date_range s f = ascRange s (D + 1) := by
    rw [generate_date_range_asc s f (by omega), hD]
  have hlen : (generate_date_range s f).length = D + 1 := by
    rw [hgdr, ascRange_length]
  have hslice : sliceStep (generate_date_range s f) st =
      (List.range M).map (fun (j : Nat) => s + ((j * st : Nat) : Int)) := by
    rw [hgdr, sliceStep_ascRange s (D + 1) st (by omega), ← hM]
  have hlast : (generate_date_range s f).getLast? = some f := by
    rw [hgdr, ascRange_getLast?, hfD]
  unfold generate_date_pairs
  rw [generate_item_pairs_def, if_neg (by omega : ¬ n = 0), hlen, ← hst,
    if_neg (by omega : ¬ st = 0), hslice]
  simp only [hlast]
  rcases Classical.em (st ∣ D) with hd | hd
  · obtain ⟨hMD, hPM⟩ := hdvd hd
    have hmem : f ∈ (List.range M).map (fun (j : Nat) => s + ((j * st : Nat) : Int)) := by
      rw [List.mem_map]
      refine ⟨M - 1, List.mem_range.mpr (by omega), ?_⟩
      rw [hMD, hfD]
    rw [if_pos hmem, List.append_nil]
    obtain ⟨Q, hQ⟩ : ∃ Q, M = Q + 1 := ⟨M - 1, by omega⟩
    have hQP : P = Q := by omega
    have hgQ : s + ((Q * st : Nat) : Int) = f := by
      have : (Q * st) = D := by
        rw [← hMD, hQ]
        simp
      rw [this, hfD]
    rw [hQ, List.range_succ, List.map_append, List.map_cons, List.map_nil, hgQ, hQP]
  · have hPM : P = M := hndvd hd
    have hmem : f ∉ (List.range M).map (fun (j : Nat) => s + ((j * st : Nat) : Int)) := by
      rw [List.mem_map]
      rintro ⟨j, _, hj⟩
      apply hd
      refine ⟨j, ?_⟩
      have hjD : (j * st : Nat) = D := by omega
      rw [← hjD, Nat.mul_comm]
    rw [if_neg hmem, hPM]

/-- The orchestrator's shifted windows, in closed form. -/
lemma tsWindows_closed (s f : Int) (D n st M P : Nat)
    (hD : (f - s).toNat = D) (hsf : s < f)
    (hn : n = ceilNat D 365) (hst : st = ceilNat (D + 1) n)
    (hM : M = ceilNat (D + 1) st) (hP : P = if st ∣ D then M - 1 else M) :
    tsWindows s f = .ok (chainW s f st P) := by
  have hD1 : 1 ≤ D := by omega
  obtain ⟨hn1, hst1, hM1, hP1, _, _, _, _, _, _, _⟩ :=
    cuts_arith D n st M P hD1 hn hst hM hP
  have hnc : n_cuts s f = n := by
    unfold n_cuts
    have : (f - s).natAbs = D := by omega
    rw [this, ← hn]
  unfold tsWindows
  rw [hnc, generate_date_pairs_closed s f D n st M P hD hsf hn hst hM hP]
  rw [Except.map, windowize_concat _ f P hP1]
  unfold chainW
  rfl

/-- Width bounds on the orchestrator's windows: every window is nonempty
and, for spans shorter than 133590 days, at most 365 days wide (the bound
the fetcher asserts). -/
lemma chainW_widths (s f : Int) (D n st M P : Nat)
    (hD : (f - s).toNat = D) (hsf : s < f) (hsmall : D < 133590)
    (hn : n = ceilNat D 365) (hst : st = ceilNat (D + 1) n)
    (hM : M = ceilNat (D + 1) st) (hP : P = if st ∣ D then M - 1 else M) :
    ∀ w ∈ chainW s f st P, w.1 ≤ w.2 ∧ w.2 - w.1 ≤ 365 := by
  have hD1 : 1 ≤ D := by omega
  obtain ⟨hn1, hst1, hM1, hP1, hdvd, hndvd, hlow, hhigh, hstrict, h366, h366'⟩ :=
    cuts_arith D n st M P hD1 hn hst hM hP
  have hfD : s + (D : Int) = f := by omega
  -- the last window is at most 365 days wide
  have wlast : D - (P - 1) * st ≤ 365 := by
    by_contra hcon
    have hPsub : P * st = (P - 1) * st + st := by
      have h3 : P = (P - 1) + 1 := by omega
      calc P * st = ((P - 1) + 1) * st := by rw [← h3]
        _ = (P - 1) * st + st := by rw [Nat.add_mul, Nat.one_mul]
    have hX : (P - 1) * st + 366 ≤ D := by omega
    have hst366 : st = 366 := by
      generalize hZ : (P - 1) * st = Z at hX hPsub hlow hhigh
      omega
    have hDP : D = P * st := by
      generalize hZ : (P - 1) * st = Z at hX hPsub hlow hhigh
      omega
    have hdv : st ∣ D := ⟨P, by rw [hDP, Nat.mul_comm]⟩
    have hDn : D = 365 * n := h366' hst366
    have hD366 : D = 366 * P := by rw [hDP, hst366, Nat.mul_comm]
    have hn366 : n = 366 * (n - P) := by omega
    have hnge : 366 ≤ n := by
      have hnP : 1 ≤ n - P := by
        rcases Nat.eq_zero_or_pos (n - P) with h0 | h1
        · rw [h0, Nat.mul_zero] at hn366
          omega
        · exact h1
      omega
    omega
  intro w hw
  rw [mem_chainW] at hw
  obtain ⟨j, hj, rfl⟩ := hw
  by_cases hc : j = P - 1
  · rw [if_pos hc, hc]
    have hlow' : (((P - 1) * st : Nat) : Int) < (D : Int) := by exact_mod_cast hlow
    have wlast' : ((D : Nat) : Int) - (((P - 1) * st : Nat) : Int) ≤ 365 := by
      have h1 : (D : Nat) - (P - 1) * st ≤ 365 := wlast
      omega
    constructor
    · omega
    · omega
  · rw [if_neg hc]
    have hjlt : j < P - 1 := by omega
    have hsucc : (j + 1) * st = j * st + st := by rw [Nat.add_mul, Nat.one_mul]
    have hcast : (((j + 1) * st : Nat) : Int) = ((j * st : Nat) : Int) + (st : Int) := by
      rw [hsucc]
      push_cast
      ring
    rw [hcast]
    constructor
    · have : (1 : Int) ≤ (st : Int) := by exact_mod_cast hst1
      omega
    · have : (st : Int) ≤ 366 := by exact_mod_cast h366
      omega

/-! ## Sequential fetch loop -/

lemma runWindows_all_ok {ε ρ : Type}
    (fetch : Int → Int → Except ε (List (ExchangeRow ρ)))
    (F : Int × Int → List (ExchangeRow ρ)) :
    ∀ W : List (Int × Int),
      (∀ w ∈ W, w.2 - w.1 ≤ 365 ∧ fetch w.1 w.2 = .ok (F w)) →
      runWindows fetch W = (W.flatMap F, none) := by
  intro W
  induction W with
  | nil =>
      intro _
      rfl
  | cons w ws ih =>
      intro h
      have hw := h w (List.mem_cons_self w ws)
      have hg : get_exr_366_days fetch w.1 w.2 = .ok (F w) := by
        unfold get_exr_366_days
        rw [if_pos hw.1, hw.2]
      simp only [runWindows, hg]
      rw [ih (fun w' hw' => h w' (List.mem_cons_of_mem _ hw'))]
      simp [List.flatMap_cons]

lemma runWindows_fail {ε ρ : Type}
    (fetch : Int → Int → Except ε (List (ExchangeRow ρ)))
    (F : Int × Int → List (ExchangeRow ρ)) (e0 : ε) :
    ∀ (pre : List (Int × Int)) (wk : Int × Int) (post : List (Int × Int)),
      (∀ w ∈ pre, w.2 - w.1 ≤ 365 ∧ fetch w.1 w.2 = .ok (F w)) →
      wk.2 - wk.1 ≤ 365 → fetch wk.1 wk.2 = .error e0 →
      runWindows fetch (pre ++ wk :: post) =
        (pre.flatMap F, some (.fetchErr e0)) := by
  intro pre
  induction pre with
  | nil =>
      intro wk post _ hk hkf
      have hg : get_exr_366_days fetch wk.1 wk.2 =
          .error (OrchError.fetchErr e0) := by
        unfold get_exr_366_days
        rw [if_pos hk, hkf]
      simp only [List.nil_append, runWindows, hg]
      rfl
  | cons w pre ih =>
      intro wk post h hk hkf
      have hw := h w (List.mem_cons_self w pre)
      have hg : get_exr_366_days fetch w.1 w.2 = .ok (F w) := by
        unfold get_exr_366_days
        rw [if_pos hw.1, hw.2]
      simp only [List.cons_append, runWindows, hg, List.append_eq]
      rw [ih wk post (fun w' hw' => h w' (List.mem_cons_of_mem _ hw')) hk hkf]
      simp [List.flatMap_cons]

/-- The `(date, currency)` product of two duplicate-free lists has no
duplicates. -/
lemma flatMap_product_nodup (l : List Int) (cs : List String)
    (hl : l.Nodup) (hcs : cs.Nodup) :
    (l.flatMap (fun d => cs.map (fun c => (d, c)))).Nodup := by
  rw [List.nodup_flatMap]
  constructor
  · intro d _
    exact hcs.map (fun c c' h => by injection h)
  · refine hl.imp ?_
    intro d d' hne x hx hx'
    simp only [List.mem_map] at hx hx'
    obtain ⟨c, _, rfl⟩ := hx
    obtain ⟨c', _, hcc⟩ := hx'
    exact hne (congrArg Prod.fst hcc.symm)

lemma zip_tail_spec (w : List α) (hw : 2 ≤ w.length) :
    w.zip w.tail ≠ [] ∧ (w.zip w.tail).head?.map Prod.fst = w.head? ∧
      (w.zip w.tail).getLast?.map Prod.snd = w.getLast? := by
  obtain ⟨a, b, t, rfl⟩ : ∃ a b t, w = a :: b :: t := by
    cases w with
    | nil => simp at hw
    | cons a w' =>
        cases w' with
        | nil => simp at hw
        | cons b t => exact ⟨a, b, t, rfl⟩
  refine ⟨?_, ?_, zip_tail_getLast? _ hw⟩
  · rw [show (a :: b :: t).zip (a :: b :: t).tail =
      (a, b) :: ((b :: t).zip t) from rfl]
    exact List.cons_ne_nil _ _
  · rw [zip_tail_head?]
    rfl

lemma two_le_length_of_head_getLast_ne (w : List α) (a z : α)
    (hh : w.head? = some a) (hl : w.getLast? = some z) (hne : z ≠ a) :
    2 ≤ w.length := by
  cases w with
  | nil => simp at hh
  | cons b t =>
      cases t with
      | nil =>
          simp at hh hl
          rw [hh] at hl
          exact absurd hl.symm hne
      | cons c t' => simp

lemma zip_tail_two (w : List α) (p q : α × α) (h : w.zip w.tail = [p, q]) :
    p.2 = q.1 := by
  cases w with
  | nil => simp at h
  | cons a w1 =>
      cases w1 with
      | nil => simp at h
      | cons b w2 =>
          cases w2 with
          | nil => simp at h
          | cons c t =>
              rw [show (a :: b :: c :: t).zip (a :: b :: c :: t).tail =
                (a, b) :: (b, c) :: ((c :: t).zip t) from rfl] at h
              injection h with h1 h2
              injection h2 with h3 _
              rw [← h1, ← h3]

/-! Sanity checks of the embedding on the source docstring examples. -/

example : generate_date_range 5 8 = [5, 6, 7, 8] := by decide
example : generate_date_range 8 5 = [8, 7, 6, 5] := by decide
example : generate_date_range 5 5 = [5] := by decide

-- docstring example, line 82: [0..9] with n = 3 gives [(0,4),(4,8),(8,9)]
example :
    generate_item_pairs [0, 1, 2, 3, 4, 5, 6, 7, 8, 9] 3 =
      .ok [(0, 4), (4, 8), (8, 9)] := by decide

example : generate_item_pairs ([] : List Int) 1 =
    .error "slice step cannot be zero" := by decide

example : zip_is_last [1, 2, 3] = [(1, false), (2, false), (3, true)] := by
  decide

example : tsWindows 0 366 = .ok [(0, 183), (184, 366)] := by decide

/-! ## Claim theorems -/

/-- C4: the Date Range Sequencer yields an inclusive day-by-day sequence:
if `start == end` exactly one element equal to `start`; if `start < end`
an ascending day-by-day sequence of length `(end - start).days + 1`; if
`start > end` a descending one of length `(start - end).days + 1`,
direction inferred by comparing the endpoints. -/
theorem c4_date_range_inclusive (s f : Int) :
    (generate_date_range s f).length = (f - s).natAbs + 1 ∧
    (s = f → generate_date_range s f = [s]) ∧
    (s ≤ f → generate_date_range s f =
      (List.range ((f - s).toNat + 1)).map (fun (i : Nat) => s + (i : Int))) ∧
    (f < s → generate_date_range s f =
      (List.range ((s - f).toNat + 1)).map (fun (i : Nat) => s - (i : Int))) := by
  refine ⟨?_, ?_, ?_, ?_⟩
  · rcases le_or_lt s f with h | h
    · rw [generate_date_range_asc s f h, ascRange_length]
      omega
    · rw [generate_date_range_desc s f h]
      simp
      omega
  · intro h
    rw [generate_date_range_asc s f (by omega)]
    have h0 : (f - s).toNat + 1 = 1 := by omega
    rw [h0]
    unfold ascRange
    rw [show List.range 1 = [0] from rfl]
    simp
  · intro h
    rw [generate_date_range_asc s f h]
    rfl
  · intro h
    exact generate_date_range_desc s f h

/-- Witness for C4 at concrete endpoints: a one-day, an ascending and a
descending range. -/
theorem c4_date_range_inclusive_witness :
    generate_date_range 3 3 = [3] ∧ generate_date_range 0 2 = [0, 1, 2] ∧
      generate_date_range 2 0 = [2, 1, 0] := by
  refine ⟨(c4_date_range_inclusive 3 3).2.1 rfl, ?_, ?_⟩
  · rw [(c4_date_range_inclusive 0 2).2.2.1 (by decide)]
    decide
  · rw [(c4_date_range_inclusive 2 0).2.2.2 (by decide)]
    decide

/-- C7: the Lookahead Tagger yields one `(element, is_last)` pair per input
element in input order; an empty input yields an empty output; for a
non-empty input the final pair carries the final element tagged `true`, and
every earlier pair is tagged `false` (so exactly one pair is tagged
`true`). -/
theorem c7_lookahead_tags {α : Type} :
    (∀ l : List α, (zip_is_last l).map Prod.fst = l) ∧
    zip_is_last ([] : List α) = [] ∧
    (∀ (l : List α) (x : α),
      zip_is_last (l ++ [x]) = l.map (fun a => (a, false)) ++ [(x, true)]) ∧
    (∀ (l : List α) (h : l ≠ []),
      (zip_is_last l).getLast? = some (l.getLast h, true) ∧
      ∀ q ∈ (zip_is_last l).dropLast, q.2 = false) := by
  refine ⟨zip_is_last_map_fst, rfl, fun l x => zip_is_last_concat x l, ?_⟩
  intro l h
  have hsplit := List.dropLast_append_getLast h
  constructor
  · conv_lhs => rw [← hsplit]
    rw [zip_is_last_concat, List.getLast?_concat]
  · intro q hq
    conv at hq => rw [← hsplit]
    rw [zip_is_last_concat, List.dropLast_concat] at hq
    obtain ⟨a, _, rfl⟩ := List.mem_map.mp hq
    rfl

/-- Witness for C7 at a concrete list. -/
theorem c7_lookahead_tags_witness :
    (zip_is_last [1, 2, 3]).map Prod.fst = [1, 2, 3] ∧
    (zip_is_last [1, 2, 3]).getLast? = some (3, true) := by
  refine ⟨c7_lookahead_tags.1 [1, 2, 3], ?_⟩
  rw [(c7_lookahead_tags.2.2.2 [1, 2, 3] (by decide)).1]
  decide

/-- C6 as stated is false: with `n = 1` and an empty input the partitioner
computes a stride of `ceil(0 / 1) = 0` and the slice `[][::0]` raises
`ValueError: slice step cannot be zero` — the degenerate length-0 input is
not handled without error. -/
theorem c6_empty_input_counterexample :
    generate_item_pairs ([] : List Int) 1 =
      .error "slice step cannot be zero" := by decide

/-- C6 amended: `n == 0` yields nothing for any input, and a length-1 input
with `n ≥ 1` yields no pair without error; but a length-0 input with
`n ≥ 1` raises a `ValueError` (zero slice step) instead of yielding
nothing. -/
theorem c6_degenerate_inputs {α : Type} [DecidableEq α] :
    (∀ l : List α, generate_item_pairs l 0 = .ok []) ∧
    (∀ (x : α) (n : Nat), 1 ≤ n → generate_item_pairs [x] n = .ok []) ∧
    (∀ n : Nat, 1 ≤ n →
      generate_item_pairs ([] : List α) n =
        .error "slice step cannot be zero") := by
  refine ⟨?_, ?_, ?_⟩
  · intro l
    rw [generate_item_pairs_def, if_pos rfl]
  · intro x n hn
    have hst : ceilNat ([x] : List α).length n = 1 := by
      unfold ceilNat
      simp only [List.length_singleton]
      have h1 : 1 + n - 1 = n := by omega
      rw [h1, Nat.div_self (by omega)]
    rw [generate_item_pairs_def, if_neg (by omega : ¬ n = 0), hst,
      if_neg (by omega : ¬ (1 : Nat) = 0)]
    have hslice : sliceStep [x] 1 = [x] := rfl
    rw [hslice]
    simp
  · intro n hn
    have hst : ceilNat ([] : List α).length n = 0 := by
      rw [List.length_nil, ceilNat_zero]
    rw [generate_item_pairs_def, if_neg (by omega : ¬ n = 0), hst, if_pos rfl]

/-- Witness for C6 (amended) at concrete inputs. -/
theorem c6_degenerate_inputs_witness :
    generate_item_pairs ([1, 2] : List Int) 0 = .ok [] ∧
    generate_item_pairs ([7] : List Int) 2 = .ok [] ∧
    generate_item_pairs ([] : List Int) 2 =
      .error "slice step cannot be zero" :=
  ⟨c6_degenerate_inputs.1 [1, 2], c6_degenerate_inputs.2.1 7 2 (by decide),
    c6_degenerate_inputs.2.2 2 (by decide)⟩

/-- C10: for `start_date = end_date` the orchestrator computes zero windows
(`n_cuts = ceil(0 / 365) = 0`), performs no fetch at all (the result does
not depend on `fetch`), and yields the empty sequence, even though the date
range itself contains the one shared date. -/
theorem c10_zero_span_empty {ε ρ : Type}
    (fetch : Int → Int → Except ε (List (ExchangeRow ρ))) (s : Int) :
    n_cuts s s = 0 ∧ tsWindows s s = .ok [] ∧
      get_exr_timeseries fetch s s = ([], none) := by
  have hnc : n_cuts s s = 0 := by
    unfold n_cuts
    have h0 : (s - s).natAbs = 0 := by omega
    rw [h0, ceilNat_zero]
  have htw : tsWindows s s = .ok [] := by
    unfold tsWindows
    rw [hnc]
    have hgdp : generate_date_pairs s s 0 = .ok [] := by
      unfold generate_date_pairs
      rw [generate_item_pairs_def, if_pos rfl]
    rw [hgdp]
    rfl
  refine ⟨hnc, htw, ?_⟩
  unfold get_exr_timeseries
  rw [htw]
  rfl

/-- C9 is right about the `date`, `datetime` and error branches, but the
text branch of `as_date` returns the bare `datetime.strptime` result — a
`datetime` (at midnight), not a CalendarDate: the `.date()` truncation
present in the `datetime` branch is missing after `strptime`.  This theorem
evaluates the embedded `as_date` on each kind of input and shows the text
branch yields the `datetime` constructor and never the `date` one. -/
theorem c9_string_branch_returns_datetime (parse : String → Option Int)
    (str : String) (day : Int) (secs : Nat) (h : parse str = some day) :
    as_date parse (.vDatetime day secs) = .ok (.vDate day) ∧
    as_date parse (.vDate day) = .ok (.vDate day) ∧
    as_date parse .vOther = .error .valueError ∧
    (∀ s2, parse s2 = none → as_date parse (.vStr s2) = .error .valueError) ∧
    as_date parse (.vStr str) = .ok (.vDatetime day 0) ∧
    (∀ d2, as_date parse (.vStr str) ≠ .ok (.vDate d2)) := by
  refine ⟨rfl, rfl, rfl, ?_, ?_, ?_⟩
  · intro s2 h2
    simp only [as_date, h2]
  · simp only [as_date, h]
  · intro d2
    simp only [as_date, h]
    simp

/-- Witness for C9 at the concrete input `"2023-01-01"`. -/
theorem c9_string_branch_returns_datetime_witness :
    as_date parse20230101 (.vStr "2023-01-01") =
        .ok (.vDatetime 738521 0) ∧
      as_date parse20230101 (.vStr "2023-01-01") ≠ .ok (.vDate 738521) := by
  have h := c9_string_branch_returns_datetime parse20230101 "2023-01-01"
    738521 0 (by decide)
  exact ⟨h.2.2.2.2.1, h.2.2.2.2.2 738521⟩

/-- C5 as stated is false: on the length-3 input `[0, 1, 0]` with `n = 1`
the single sample `[0]` already contains (by value) the final element `0`,
so nothing is appended and the output is empty — no first or last pair
exists. -/
theorem c5_duplicate_input_counterexample :
    generate_item_pairs ([0, 1, 0] : List Int) 1 = .ok [] := by decide

/-- C5 amended: for every finite input of **pairwise-distinct** elements of
length ≥ 2 and every `n ≥ 1`, the partitioner's output is non-empty, the
first element of the first pair is the input's first element, and the
second element of the last pair is the input's true last element.  (The
`not in` check appends the final element by value, so duplicated values can
suppress the final pair; the restriction to duplicate-free inputs is what
the counterexample forces, and the only use in the program — a date
range — satisfies it.) -/
theorem c5_partition_coverage_nodup {α : Type} [DecidableEq α]
    (l : List α) (n : Nat) (hlen : 2 ≤ l.length) (hn : 1 ≤ n)
    (hnd : l.Nodup) :
    ∃ ps, generate_item_pairs l n = .ok ps ∧ ps ≠ [] ∧
      ps.head?.map Prod.fst = l.head? ∧
      ps.getLast?.map Prod.snd = l.getLast? := by
  obtain ⟨x, xs, rfl⟩ : ∃ x xs, l = x :: xs := by
    cases l with
    | nil => simp at hlen
    | cons x xs => exact ⟨x, xs, rfl⟩
  have hxs : xs ≠ [] := by
    intro h0
    rw [h0] at hlen
    simp at hlen
  have hxmem : x ∉ xs := (List.nodup_cons.mp hnd).1
  obtain ⟨z, hz⟩ := ne_nil_getLast?_some (x :: xs) (by simp)
  have hzxs : xs.getLast? = some z := by
    rw [getLast?_cons_of_ne_nil x xs hxs] at hz
    exact hz
  have hzmem : z ∈ xs := List.mem_of_getLast?_eq_some hzxs
  have hzx : z ≠ x := by
    intro h0
    rw [h0] at hzmem
    exact hxmem hzmem
  have hst1 : 1 ≤ ceilNat (x :: xs).length n :=
    one_le_ceilNat _ n (by simp) (by omega)
  rw [generate_item_pairs_def, if_neg (by omega : ¬ n = 0),
    if_neg (by omega : ¬ ceilNat (x :: xs).length n = 0)]
  simp only [hz]
  by_cases hmem : z ∈ sliceStep (x :: xs) (ceilNat (x :: xs).length n)
  · rw [if_pos hmem, List.append_nil]
    have hlast : (sliceStep (x :: xs) (ceilNat (x :: xs).length n)).getLast? =
        some z :=
      sliceStep_getLast?_of_mem _ (x :: xs).length (x :: xs) le_rfl hnd z hz hmem
    have hhd : (sliceStep (x :: xs) (ceilNat (x :: xs).length n)).head? =
        some x := sliceStep_head x xs _
    have h2 : 2 ≤ (sliceStep (x :: xs) (ceilNat (x :: xs).length n)).length :=
      two_le_length_of_head_getLast_ne _ x z hhd hlast hzx
    obtain ⟨hne, hh, hl⟩ := zip_tail_spec _ h2
    refine ⟨_, rfl, hne, ?_, ?_⟩
    · rw [hh, hhd]
      rfl
    · rw [hl, hlast]
  · rw [if_neg hmem]
    have hlast : (sliceStep (x :: xs) (ceilNat (x :: xs).length n) ++
        [z]).getLast? = some z := List.getLast?_concat _
    have hcons : sliceStep (x :: xs) (ceilNat (x :: xs).length n) =
        x :: sliceStep (xs.drop (ceilNat (x :: xs).length n - 1))
          (ceilNat (x :: xs).length n) := sliceStep_cons x xs _
    have hhd : (sliceStep (x :: xs) (ceilNat (x :: xs).length n) ++
        [z]).head? = some x := by
      rw [hcons, List.cons_append]
      rfl
    have h2 : 2 ≤ (sliceStep (x :: xs) (ceilNat (x :: xs).length n) ++
        [z]).length := by
      rw [List.length_append, hcons]
      simp
    obtain ⟨hne, hh, hl⟩ := zip_tail_spec _ h2
    refine ⟨_, rfl, hne, ?_, ?_⟩
    · rw [hh, hhd]
      rfl
    · rw [hl, hlast]

/-- Witness for C5 (amended) at the concrete input `[0, 1, 2]`, `n = 2`. -/
theorem c5_partition_coverage_nodup_witness :
    ∃ ps, generate_item_pairs ([0, 1, 2] : List Int) 2 = .ok ps ∧ ps ≠ [] ∧
      ps.head?.map Prod.fst = ([0, 1, 2] : List Int).head? ∧
      ps.getLast?.map Prod.snd = ([0, 1, 2] : List Int).getLast? :=
  c5_partition_coverage_nodup [0, 1, 2] 2 (by decide) (by decide) (by decide)

/-- C2: for every pair list the orchestrator derives from
`start_date ≤ end_date` (with at least one pair), the fetched windows are
the pairs with every `to` endpoint except the last shifted back one day and
the last pair unmodified; adjacent pairs share their boundary date, and in
the 2-window case the second fetch's `from` is the unshifted shared
boundary while the first fetch's `to` is that boundary minus one day. -/
theorem c2_boundary_shift (s f : Int) (ps : List (Int × Int)) (_hsf : s ≤ f)
    (hps : generate_date_pairs s f (n_cuts s f) = .ok ps) (hne : ps ≠ []) :
    (∃ ws, tsWindows s f = .ok ws ∧ ws.length = ps.length ∧
      (∀ i, i + 1 < ps.length →
        ws[i]? = ps[i]?.map (fun p => (p.1, p.2 - 1))) ∧
      ws.getLast? = ps.getLast?) ∧
    (∀ i, i + 1 < ps.length →
      ps[i]?.map Prod.snd = ps[i + 1]?.map Prod.fst) ∧
    (∀ a b c d : Int, ps = [(a, b), (c, d)] →
      b = c ∧ tsWindows s f = .ok [(a, b - 1), (c, d)]) := by
  have htw : tsWindows s f = .ok ((zip_is_last ps).map shiftWin) := by
    unfold tsWindows
    rw [hps]
    rfl
  have hws : (zip_is_last ps).map shiftWin =
      ps.dropLast.map (fun p => (p.1, p.2 - 1)) ++ [ps.getLast hne] := by
    conv_lhs => rw [← List.dropLast_append_getLast hne]
    rw [zip_is_last_concat, List.map_append, List.map_map, List.map_cons,
      List.map_nil]
    congr 1
    simp [shiftWin]
  refine ⟨⟨(zip_is_last ps).map shiftWin, htw, ?_, ?_, ?_⟩, ?_, ?_⟩
  · rw [hws]
    simp only [List.length_append, List.length_map, List.length_dropLast,
      List.length_cons, List.length_nil]
    have : 1 ≤ ps.length := by
      cases ps with
      | nil => exact absurd rfl hne
      | cons p t => simp
    omega
  · intro i hi
    rw [hws, List.getElem?_append_left (by
        simp only [List.length_map, List.length_dropLast]
        omega),
      List.getElem?_map, List.getElem?_dropLast, if_pos (by omega)]
  · rw [hws, List.getLast?_concat]
    exact (List.getLast?_eq_getLast ps hne).symm
  · obtain ⟨w, rfl⟩ := generate_item_pairs_shape _ _ ps hps
    intro i hi
    rw [List.getElem?_eq_getElem (by omega : i < (w.zip w.tail).length),
      List.getElem?_eq_getElem hi]
    exact congrArg some (zip_tail_adjacent w i hi)
  · intro a b c d heq
    obtain ⟨w, rfl⟩ := generate_item_pairs_shape _ _ ps hps
    refine ⟨zip_tail_two w (a, b) (c, d) heq, ?_⟩
    rw [htw, heq]
    rw [show zip_is_last [((a : Int), b), (c, d)] =
      [(((a : Int), b), false), (((c : Int), d), true)] from rfl]
    simp [shiftWin]

/-- Witness for C2: the concrete 2-window span of 366 days starting at day
0 produces the pairs `(0, 184), (184, 366)` and fetches `(0, 183)` then
`(184, 366)`: the second fetch starts at the shared boundary 184 and the
first ends the day before. -/
theorem c2_boundary_shift_witness :
    (184 : Int) = 184 ∧ tsWindows 0 366 = .ok [(0, 183), (184, 366)] := by
  have h := (c2_boundary_shift 0 366 [(0, 184), (184, 366)] (by decide)
    (by decide) (by decide)).2.2 0 184 184 366 rfl
  exact ⟨h.1, h.2.trans (by norm_num)⟩

/-- C3 is the intended behavior, but the code violates its own assertion:
for a span of exactly 133590 = 365 · 366 days (e.g. `2000-01-01` to
`2365-10-04`; here day 0 to day 133590) the orchestrator computes 366
windows of stride 366 whose sampled points land exactly on the final date,
so the **last** window `(133224, 133590)` spans 366 days and is not
shifted — `get_exr_366_days` raises its `AssertionError` regardless of the
remote service. -/
theorem c3_window_limit_violation :
    tsWindows 0 133590 = .ok (chainW 0 133590 366 365) ∧
    (133224, 133590) ∈ chainW 0 133590 366 365 ∧
    ∀ {ε ρ : Type} (fetch : Int → Int → Except ε (List (ExchangeRow ρ))),
      get_exr_366_days fetch 133224 133590 = .error .assertFail := by
  refine ⟨?_, ?_, ?_⟩
  · exact tsWindows_closed 0 133590 133590 366 366 366 365 (by decide)
      (by decide) (by decide) (by decide) (by decide) (by decide)
  · rw [mem_chainW]
    refine ⟨364, by omega, ?_⟩
    norm_num
  · intro ε ρ fetch
    unfold get_exr_366_days
    rw [if_neg (by norm_num)]

/-- C8: if the fetch for one window fails, the caller sees exactly the rows
of the earlier windows, in order, followed by the propagated error; and the
overall result does not depend on the fetcher's behavior on any later
window (no fetch is attempted after the failing one). -/
theorem c8_failure_stops_stream {ε ρ : Type}
    (fetch : Int → Int → Except ε (List (ExchangeRow ρ)))
    (F : Int × Int → List (ExchangeRow ρ)) (e0 : ε) (s f : Int)
    (pre : List (Int × Int)) (wk : Int × Int) (post : List (Int × Int))
    (hws : tsWindows s f = .ok (pre ++ wk :: post))
    (hpre : ∀ w ∈ pre, w.2 - w.1 ≤ 365 ∧ fetch w.1 w.2 = .ok (F w))
    (hk : wk.2 - wk.1 ≤ 365) (hkf : fetch wk.1 wk.2 = .error e0) :
    get_exr_timeseries fetch s f =
      (pre.flatMap F, some (.fetchErr e0)) ∧
    ∀ fetch₂ : Int → Int → Except ε (List (ExchangeRow ρ)),
      (∀ w ∈ pre ++ [wk], fetch₂ w.1 w.2 = fetch w.1 w.2) →
      get_exr_timeseries fetch₂ s f =
        (pre.flatMap F, some (.fetchErr e0)) := by
  constructor
  · unfold get_exr_timeseries
    rw [hws]
    exact runWindows_fail fetch F e0 pre wk post hpre hk hkf
  · intro fetch₂ hagree
    unfold get_exr_timeseries
    rw [hws]
    apply runWindows_fail fetch₂ F e0 pre wk post
    · intro w hw
      refine ⟨(hpre w hw).1, ?_⟩
      rw [hagree w (List.mem_append_left _ hw)]
      exact (hpre w hw).2
    · exact hk
    · rw [hagree wk (List.mem_append_right _ (List.mem_singleton_self wk))]
      exact hkf

/-- Witness for C8: a 733-day span gives three windows; the fetch for the
second window fails, so the caller sees the single row of window 1 followed
by the error and nothing from window 3. -/
theorem c8_failure_stops_stream_witness :
    get_exr_timeseries failFetch 0 732 =
      ([ExchangeRow.mk 0 "USD" 1], some (.fetchErr "boom")) := by
  have h := (c8_failure_stops_stream failFetch oneRow "boom" 0 732
    [(0, 244)] (245, 489) [(490, 732)]
    (by decide)
    (by
      intro w hw
      rw [List.mem_singleton] at hw
      subst hw
      exact ⟨by decide, by decide⟩)
    (by decide) (by decide)).1
  exact h.trans (by decide)

/-- C1 as stated (for every `start_date ≤ end_date`) is false in the
degenerate case `start_date = end_date`: the window count is
`ceil(0 / 365) = 0`, no fetch happens and the output is empty, while the
Date Range Sequencer still yields the one shared date — so the output's
date set does not equal the sequencer's. -/
theorem c1_start_eq_end_counterexample :
    (get_exr_timeseries prodFetch 0 0).1.map ExchangeRow.date = [] ∧
    (get_exr_timeseries prodFetch 0 0).2 = none ∧
    generate_date_range 0 0 = [0] := by decide

/-- C1 amended: for `start_date` strictly before `end_date`, spans shorter
than 133590 days (beyond which the window-limit slip of C3 aborts the
stream), and a Window Fetcher that yields exactly one row per
`(date, currency)` for exactly the dates of its requested inclusive window
(over a fixed duplicate-free, non-empty currency list), the orchestrator's
full output has no error, contains no `(date, currency)` pair twice, and
its set of distinct dates equals the set the Date Range Sequencer produces
over `(start_date, end_date)` inclusive. -/
theorem c1_no_duplicate_cover {ε ρ : Type}
    (fetch : Int → Int → Except ε (List (ExchangeRow ρ)))
    (cs : List String) (rate : Int → String → ρ) (s f : Int)
    (h1 : s < f) (h2 : f - s < 133590) (hcs : cs ≠ []) (hnd : cs.Nodup)
    (hf : ∀ a b : Int, a ≤ b → fetch a b =
      .ok ((generate_date_range a b).flatMap
        (fun d => cs.map (fun c => ExchangeRow.mk d c (rate d c))))) :
    (get_exr_timeseries fetch s f).2 = none ∧
    ((get_exr_timeseries fetch s f).1.map
      (fun r => (r.date, r.currency))).Nodup ∧
    ∀ d : Int, (d ∈ (get_exr_timeseries fetch s f).1.map ExchangeRow.date ↔
      d ∈ generate_date_range s f) := by
  obtain ⟨D, hD⟩ : ∃ D, (f - s).toNat = D := ⟨_, rfl⟩
  obtain ⟨n, hn⟩ : ∃ n, ceilNat D 365 = n := ⟨_, rfl⟩
  obtain ⟨st, hst⟩ : ∃ st, ceilNat (D + 1) n = st := ⟨_, rfl⟩
  obtain ⟨M, hM⟩ : ∃ M, ceilNat (D + 1) st = M := ⟨_, rfl⟩
  obtain ⟨P, hP⟩ : ∃ P, (if st ∣ D then M - 1 else M) = P := ⟨_, rfl⟩
  have htw := tsWindows_closed s f D n st M P hD h1 hn.symm hst.symm hM.symm
    hP.symm
  have hwid := chainW_widths s f D n st M P hD h1 (by omega) hn.symm hst.symm
    hM.symm hP.symm
  have hD1 : 1 ≤ D := by omega
  obtain ⟨hn1, hst1, hM1, hP1, _, _, hlow, hhigh, _, _, _⟩ :=
    cuts_arith D n st M P hD1 hn.symm hst.symm hM.symm hP.symm
  have hok : ∀ w ∈ chainW s f st P, w.2 - w.1 ≤ 365 ∧
      fetch w.1 w.2 = .ok ((generate_date_range w.1 w.2).flatMap
        (fun d => cs.map (fun c => ExchangeRow.mk d c (rate d c)))) := by
    intro w hw
    obtain ⟨hle, hwle⟩ := hwid w hw
    exact ⟨hwle, hf w.1 w.2 hle⟩
  have hrun : get_exr_timeseries fetch s f =
      ((chainW s f st P).flatMap (fun w =>
        (generate_date_range w.1 w.2).flatMap
          (fun d => cs.map (fun c => ExchangeRow.mk d c (rate d c)))), none) := by
    unfold get_exr_timeseries
    rw [htw]
    exact runWindows_all_ok fetch _ _ hok
  have hcover : (chainW s f st P).flatMap
      (fun w => generate_date_range w.1 w.2) = generate_date_range s f := by
    apply chainW_cover st hst1 P s f hP1
    · have hcast : (((P - 1) * st : Nat) : Int) < (D : Int) := by
        exact_mod_cast hlow
      omega
    · omega
  have hrows : (chainW s f st P).flatMap (fun w =>
      (generate_date_range w.1 w.2).flatMap
        (fun d => cs.map (fun c => ExchangeRow.mk d c (rate d c)))) =
      (generate_date_range s f).flatMap
        (fun d => cs.map (fun c => ExchangeRow.mk d c (rate d c))) := by
    rw [← List.flatMap_assoc, hcover]
  rw [hrun, hrows]
  refine ⟨rfl, ?_, ?_⟩
  · rw [List.map_flatMap]
    have hmm : (fun d => ((cs.map fun c => ExchangeRow.mk d c (rate d c)).map
        fun r => (r.date, r.currency))) =
        fun d => cs.map (fun c => ((d : Int), c)) := by
      funext d
      rw [List.map_map]
      rfl
    rw [hmm]
    refine flatMap_product_nodup _ cs ?_ hnd
    rw [generate_date_range_asc s f (by omega)]
    exact ascRange_nodup _ _
  · intro d
    rw [List.map_flatMap]
    constructor
    · intro hd
      obtain ⟨d', hd', hmem⟩ := List.mem_flatMap.mp hd
      rw [List.map_map] at hmem
      obtain ⟨c, _, heq⟩ := List.mem_map.mp hmem
      have hdd : d' = d := heq
      rw [← hdd]
      exact hd'
    · intro hd
      obtain ⟨c, hc⟩ := List.exists_mem_of_ne_nil cs hcs
      refine List.mem_flatMap.mpr ⟨d, hd, ?_⟩
      rw [List.map_map]
      exact List.mem_map.mpr ⟨c, hc, rfl⟩

/-- Witness for C1 (amended) on the two-day span day 0 to day 1 with the
ideal single-currency fetcher. -/
theorem c1_no_duplicate_cover_witness :
    (get_exr_timeseries prodFetch 0 1).2 = none ∧
    ((get_exr_timeseries prodFetch 0 1).1.map
      (fun r => (r.date, r.currency))).Nodup ∧
    ((0 : Int) ∈ (get_exr_timeseries prodFetch 0 1).1.map ExchangeRow.date ↔
      (0 : Int) ∈ generate_date_range 0 1) := by
  have h := c1_no_duplicate_cover prodFetch ["USD"] (fun _ _ => (1 : Int)) 0 1
    (by decide) (by decide) (by decide) (by decide) (fun a b _ => rfl)
  exact ⟨h.1, h.2.1, h.2.2 0⟩

end TapExchangerate
